import Mathlib

/-!
Verification of the prospect-finder pipeline implemented in `src/app.py`.

Shallow embedding conventions:
* Python strings are modeled as lists of characters (`Str := List Char`);
  Python string emptiness/falsiness is `[]`.
* `urllib.parse.urlparse(url).netloc` is modeled by `netlocOf`: optional
  scheme removal (a leading run of scheme characters followed by a colon,
  starting with an ASCII letter), then the authority component, present only
  after a leading double slash and delimited by a slash, a question mark or a
  hash.  The `ValueError` that `urlparse` raises on a netloc with unbalanced
  square brackets is reflected by the bracket test inside `extract_domain`
  (the `try/except` there turns it into an empty result).
* `str.lower` is `Char.toLower` mapped over the list (ASCII case folding, as
  in the source data of interest), `str.strip` is `stripStr`, `s.split(c)` is
  `splitOnChar c`, the `in` operator on strings is `isSubstr`.
* Network and HTML-parsing effects (`requests`, `BeautifulSoup`) are external
  collaborators; they enter as oracle functions supplied to the pipeline
  definitions, exactly at the boundaries the code calls them.
-/

abbrev Str := List Char

/-- Membership test of `urllib.parse`s scheme characters
(ASCII letters, digits, plus, minus, dot). -/
def schemeChar (c : Char) : Bool :=
  c.isAlpha || c.isDigit || c = '+' || c = '-' || c = '.'

/-- Split a string at its first colon: `some (before, after)` when a colon
occurs, mirroring `url.find(':')` in `urllib.parse.urlsplit`. -/
def splitAtColon : Str → Option (Str × Str)
  | [] => none
  | c :: cs =>
    if c = ':' then some ([], cs)
    else
      match splitAtColon cs with
      | some (pre, rest) => some (c :: pre, rest)
      | none => none

/-- Scheme removal of `urllib.parse.urlsplit`: when the text before the first
colon is nonempty, starts with an ASCII letter and consists of scheme
characters, the scheme and the colon are dropped. -/
def removeScheme (l : Str) : Str :=
  match splitAtColon l with
  | some (pre, rest) =>
    match pre with
    | [] => l
    | c :: cs => if c.isAlpha && (c :: cs).all schemeChar then rest else l
  | none => l

/-- The `netloc` of `urllib.parse.urlparse`: present only when the input
(after scheme removal) starts with a double slash, and extends to the next
slash, question mark or hash. -/
def netlocOf (l : Str) : Str :=
  match removeScheme l with
  | '/' :: '/' :: rest => rest.takeWhile (fun c => !(c = '/' || c = '?' || c = '#'))
  | _ => []

/-- Extend the first segment of a split with one more character. -/
def consHead (c : Char) : List Str → List Str
  | [] => [[c]]
  | s :: ss => (c :: s) :: ss

/-- Python `s.split(sep)` for a one-character separator: keeps empty
segments, and splitting the empty string gives one empty segment. -/
def splitOnChar (sep : Char) : Str → List Str
  | [] => [[]]
  | c :: cs =>
    if c = sep then [] :: splitOnChar sep cs else consHead c (splitOnChar sep cs)

/-- Python `".".join(parts)`. -/
def joinDot : List Str → Str
  | [] => []
  | [s] => s
  | s :: ss => s ++ '.' :: joinDot ss

/-- The body of `extract_domain` applied to an already-computed, lowercased
netloc: the bracket test reflects the `ValueError` of `urlparse` on
unbalanced square brackets, which the surrounding `try/except` maps to `""`;
otherwise the last two dot-separated labels are joined (the whole netloc when
it has fewer than two labels). -/
def extractCore (netloc : Str) : Str :=
  if (netloc.contains '[' : Bool) ≠ netloc.contains ']' then []
  else if 2 ≤ (splitOnChar '.' netloc).length then
    joinDot ((splitOnChar '.' netloc).drop ((splitOnChar '.' netloc).length - 2))
  else netloc

/-- `extract_domain` from app.py: lowercase the netloc of the URL and keep
its registrable two-label tail. -/
def extract_domain (url : Str) : Str :=
  extractCore ((netlocOf url).map Char.toLower)

theorem charToNat_ofNat_valid (n : Nat) (h : n.isValidChar) :
    (Char.ofNat n).toNat = n := by
  rw [Char.ofNat, dif_pos h]
  rfl

theorem toLower_eq_or (c : Char) :
    Char.toLower c = c ∨
      (97 ≤ (Char.toLower c).toNat ∧ (Char.toLower c).toNat ≤ 122) := by
  unfold Char.toLower
  by_cases h : c.toNat ≥ 65 ∧ c.toNat ≤ 90
  · right
    rw [if_pos h, charToNat_ofNat_valid _ (Or.inl (by omega))]
    omega
  · left
    rw [if_neg h]

theorem toLower_fix_of_lower {d : Char}
    (h : 97 ≤ d.toNat ∧ d.toNat ≤ 122) : Char.toLower d = d := by
  unfold Char.toLower
  rw [if_neg (by omega)]

theorem toLower_idem (c : Char) :
    Char.toLower (Char.toLower c) = Char.toLower c := by
  rcases toLower_eq_or c with h | h
  · rw [h, h]
  · exact toLower_fix_of_lower h

theorem toLower_eq_slash {c : Char} (h : Char.toLower c = '/') : c = '/' := by
  rcases toLower_eq_or c with h2 | h2
  · rwa [h2] at h
  · rw [h] at h2
    have h47 : ('/').toNat = 47 := rfl
    omega

theorem splitAtColon_eq {l pre rest : Str}
    (h : splitAtColon l = some (pre, rest)) : l = pre ++ ':' :: rest := by
  induction l generalizing pre rest with
  | nil => simp [splitAtColon] at h
  | cons c cs ih =>
    by_cases hc : c = ':'
    · simp [splitAtColon, hc] at h
      rcases h with ⟨h1, h2⟩
      simp [← h1, ← h2, hc]
    · simp only [splitAtColon, if_neg hc] at h
      cases hsp : splitAtColon cs with
      | none => rw [hsp] at h; simp at h
      | some pr =>
        rw [hsp] at h
        cases pr with
        | mk p r =>
          simp at h
          rcases h with ⟨h1, h2⟩
          have h3 : splitAtColon cs = some (p, rest) := by rw [hsp, h2]
          have h4 := ih h3
          simp [← h1, h4]

theorem removeScheme_no_slash {l : Str} (h : '/' ∉ l) :
    '/' ∉ removeScheme l := by
  unfold removeScheme
  split
  · rename_i pre rest heq
    split
    · exact h
    · split
      · intro hmem
        exact h (by
          rw [splitAtColon_eq heq]
          exact List.mem_append.mpr (Or.inr (List.mem_cons_of_mem _ hmem)))
      · exact h
  · exact h

theorem netlocOf_eq_nil_of_no_slash {l : Str} (h : '/' ∉ l) :
    netlocOf l = [] := by
  unfold netlocOf
  have h2 := removeScheme_no_slash h
  split
  · rename_i rest heq
    exact absurd (by rw [heq]; simp) h2
  · rfl

theorem no_slash_netlocOf (l : Str) : '/' ∉ netlocOf l := by
  unfold netlocOf
  split
  · intro hmem
    have := List.mem_takeWhile_imp hmem
    simp at this
  · simp

theorem no_slash_map_toLower {l : Str} (h : '/' ∉ l) :
    '/' ∉ l.map Char.toLower := by
  intro hmem
  rcases List.mem_map.mp hmem with ⟨c, hc, hlow⟩
  exact h (toLower_eq_slash hlow ▸ hc)

theorem splitOnChar_no_slash {sep : Char} {l s : Str}
    (h : '/' ∉ l) (hs : s ∈ splitOnChar sep l) : '/' ∉ s := by
  induction l generalizing s with
  | nil =>
    simp [splitOnChar] at hs
    simp [hs]
  | cons c cs ih =>
    have hctail : '/' ∉ cs := fun hm => h (List.mem_cons_of_mem _ hm)
    have hchead : c ≠ '/' := fun he => h (he ▸ List.mem_cons_self _ _)
    unfold splitOnChar at hs
    by_cases hc : c = sep
    · rw [if_pos hc] at hs
      rcases List.mem_cons.mp hs with h1 | h2
      · simp [h1]
      · exact ih hctail h2
    · rw [if_neg hc] at hs
      cases hsp : splitOnChar sep cs with
      | nil =>
        rw [hsp] at hs
        simp [consHead] at hs
        subst hs
        intro hmem
        rcases List.mem_cons.mp hmem with he | hm
        · exact hchead he.symm
        · simp at hm
      | cons t ts =>
        rw [hsp] at hs
        simp only [consHead] at hs
        rcases List.mem_cons.mp hs with h1 | h2
        · subst h1
          intro hmem
          rcases List.mem_cons.mp hmem with he | hm
          · exact hchead he.symm
          · exact ih hctail (by rw [hsp]; exact List.mem_cons_self t ts) hm
        · exact ih hctail (by rw [hsp]; exact List.mem_cons_of_mem t h2)

theorem joinDot_no_slash {ss : List Str} (h : ∀ s ∈ ss, '/' ∉ s) :
    '/' ∉ joinDot ss := by
  induction ss with
  | nil => simp [joinDot]
  | cons s ss ih =>
    cases ss with
    | nil => simpa [joinDot] using h s (List.mem_cons_self _ _)
    | cons t ts =>
      unfold joinDot
      intro hmem
      rcases List.mem_append.mp hmem with h1 | h2
      · exact h s (List.mem_cons_self _ _) h1
      · rcases List.mem_cons.mp h2 with he | hm
        · exact absurd he (by decide)
        · exact ih (fun u hu => h u (List.mem_cons_of_mem _ hu)) hm

theorem no_slash_extract_domain (u : Str) : '/' ∉ extract_domain u := by
  have hnet : '/' ∉ (netlocOf u).map Char.toLower :=
    no_slash_map_toLower (no_slash_netlocOf u)
  unfold extract_domain extractCore
  split
  · simp
  · split
    · apply joinDot_no_slash
      intro s hs
      exact splitOnChar_no_slash hnet (List.drop_subset _ _ hs)
    · exact hnet

theorem extract_domain_double (u : Str) :
    extract_domain (extract_domain u) = [] := by
  have h := netlocOf_eq_nil_of_no_slash (no_slash_extract_domain u)
  show extractCore ((netlocOf (extract_domain u)).map Char.toLower) = []
  rw [h]
  rfl

/-- C3 counterexample: at the claim's own example URL, a second application
of extract_domain yields the empty string, not a fixed point, so
extract_domain is not idempotent. -/
theorem extract_domain_not_idempotent_cex :
    extract_domain (extract_domain (("http://sub.blog.example.com/path").toList))
      ≠ extract_domain (("http://sub.blog.example.com/path").toList) := by
  decide

/-- C3 (amended): extract_domain maps http://sub.blog.example.com/path to
example.com, but it is not idempotent: a second application always returns
the empty string, because the first application yields a bare domain with no
scheme and no double-slash authority marker, whose netloc parses as empty. -/
theorem extract_domain_example_and_double_empty :
    extract_domain (("http://sub.blog.example.com/path").toList) = ("example.com").toList
      ∧ ∀ u : Str, extract_domain (extract_domain u) = [] :=
  ⟨by decide, extract_domain_double⟩

/-- A search result as normalized by `serpapi_search` in app.py. -/
structure SearchResult where
  title : Str
  url : Str
  snippet : Str
deriving DecidableEq

/-- The URL-dedupe loop of the orchestrator (app.py, "Dedupe URLs"): a record
is kept when its url is truthy (nonempty) and not in the seen set; kept
records add their url to the seen set at once. -/
def dedupeLoop : List SearchResult → List Str → List SearchResult
  | [], _ => []
  | r :: rs, seen =>
    if r.url ≠ [] ∧ r.url ∉ seen then r :: dedupeLoop rs (r.url :: seen)
    else dedupeLoop rs seen

/-- The dedupe stage, started with an empty seen set. -/
def dedupe (rs : List SearchResult) : List SearchResult := dedupeLoop rs []

theorem dedupeLoop_sublist (rs : List SearchResult) (seen : List Str) :
    (dedupeLoop rs seen).Sublist rs := by
  induction rs generalizing seen with
  | nil => simp [dedupeLoop]
  | cons r rs ih =>
    unfold dedupeLoop
    split
    · exact (ih _).cons₂ r
    · exact (ih seen).cons r

theorem dedupeLoop_mem {rs : List SearchResult} {seen : List Str}
    {r : SearchResult} (h : r ∈ dedupeLoop rs seen) :
    r.url ≠ [] ∧ r.url ∉ seen := by
  induction rs generalizing seen with
  | nil => simp [dedupeLoop] at h
  | cons q rs ih =>
    unfold dedupeLoop at h
    split at h
    · rename_i hc
      rcases List.mem_cons.mp h with h1 | h2
      · subst h1; exact hc
      · have h3 := ih h2
        exact ⟨h3.1, fun hm => h3.2 (List.mem_cons_of_mem _ hm)⟩
    · exact ih h

theorem dedupeLoop_pairwise (rs : List SearchResult) (seen : List Str) :
    (dedupeLoop rs seen).Pairwise (fun a b => a.url ≠ b.url) := by
  induction rs generalizing seen with
  | nil => simp [dedupeLoop]
  | cons r rs ih =>
    unfold dedupeLoop
    split
    · refine List.Pairwise.cons ?_ (ih _)
      intro b hb he
      exact (dedupeLoop_mem hb).2 (by rw [← he]; exact List.mem_cons_self _ _)
    · exact ih _

theorem dedupeLoop_first {rs : List SearchResult} {seen : List Str}
    {r : SearchResult} (h : r ∈ dedupeLoop rs seen) :
    ∃ l1 l2, rs = l1 ++ r :: l2 ∧ ∀ r' ∈ l1, r'.url = r.url → r'.url ∈ seen := by
  induction rs generalizing seen with
  | nil => simp [dedupeLoop] at h
  | cons q rs ih =>
    unfold dedupeLoop at h
    split at h
    · rename_i hc
      rcases List.mem_cons.mp h with h1 | h2
      · exact ⟨[], rs, by rw [h1]; rfl, by simp⟩
      · rcases ih h2 with ⟨l1, l2, heq, hfirst⟩
        refine ⟨q :: l1, l2, by rw [heq]; rfl, ?_⟩
        intro r' hr' hurl
        have hmem := dedupeLoop_mem h2
        rcases List.mem_cons.mp hr' with he | hm
        · subst he
          exact absurd (by rw [← hurl]; exact List.mem_cons_self _ _) hmem.2
        · have h4 := hfirst r' hm hurl
          rcases List.mem_cons.mp h4 with he2 | hm2
          · exact absurd (by rw [← hurl, he2]; exact List.mem_cons_self _ _) hmem.2
          · exact hm2
    · rename_i hc
      rcases ih h with ⟨l1, l2, heq, hfirst⟩
      refine ⟨q :: l1, l2, by rw [heq]; rfl, ?_⟩
      intro r' hr' hurl
      rcases List.mem_cons.mp hr' with he | hm
      · subst he
        rcases not_and_or.mp hc with h5 | h5
        · exact absurd (by rw [← hurl]; exact not_not.mp h5) (dedupeLoop_mem h).1
        · exact not_not.mp h5
      · exact hfirst r' hm hurl

/-- C2: the dedupe stage returns a subsequence of its input (so first-seen
relative order is preserved), no two survivors share an equal url string
(exact equality, no normalization), and every survivor is the first record
of its url in the input: all strictly earlier records have a different url. -/
theorem dedupe_spec (rs : List SearchResult) :
    (dedupe rs).Sublist rs ∧
    (dedupe rs).Pairwise (fun a b => a.url ≠ b.url) ∧
    ∀ r ∈ dedupe rs, ∃ l1 l2, rs = l1 ++ r :: l2 ∧ ∀ r' ∈ l1, r'.url ≠ r.url := by
  refine ⟨dedupeLoop_sublist rs [], dedupeLoop_pairwise rs [], ?_⟩
  intro r hr
  rcases dedupeLoop_first hr with ⟨l1, l2, heq, hfirst⟩
  exact ⟨l1, l2, heq, fun r' h1 h2 => absurd (hfirst r' h1 h2) (List.not_mem_nil _)⟩

/-- Python startswith on our character lists (used to model the `in` scan). -/
def isPrefOf : Str → Str → Bool
  | [], _ => true
  | _ :: _, [] => false
  | c :: cs, d :: ds => if c = d then isPrefOf cs ds else false

/-- Python substring containment `needle in hay`: some position of the hay
starts with the needle; the empty needle is contained everywhere. -/
def isSubstr (n : Str) : Str → Bool
  | [] => n.isEmpty
  | c :: t => isPrefOf n (c :: t) || isSubstr n t

theorem isPrefOf_iff {n h : Str} : isPrefOf n h = true ↔ ∃ t, h = n ++ t := by
  induction n generalizing h with
  | nil => simp [isPrefOf]
  | cons c cs ih =>
    cases h with
    | nil =>
      simp only [isPrefOf]
      constructor
      · intro hf; simp at hf
      · rintro ⟨t, he⟩; simp at he
    | cons d ds =>
      unfold isPrefOf
      by_cases hc : c = d
      · subst hc
        rw [if_pos rfl, ih]
        constructor
        · rintro ⟨t, rfl⟩; exact ⟨t, rfl⟩
        · rintro ⟨t, he⟩
          simp at he
          exact ⟨t, he⟩
      · rw [if_neg hc]
        constructor
        · intro hf; simp at hf
        · rintro ⟨t, he⟩
          simp at he
          exact absurd he.1.symm hc

theorem isSubstr_iff {n h : Str} :
    isSubstr n h = true ↔ ∃ l1 l2, h = l1 ++ n ++ l2 := by
  induction h with
  | nil =>
    simp only [isSubstr, List.isEmpty_iff]
    constructor
    · intro he; exact ⟨[], [], by simp [he]⟩
    · rintro ⟨l1, l2, he⟩
      have h1 := List.append_eq_nil.mp (List.append_eq_nil.mp he.symm).1
      exact h1.2
  | cons c t ih =>
    simp only [isSubstr, Bool.or_eq_true, isPrefOf_iff, ih]
    constructor
    · rintro (⟨t2, he⟩ | ⟨l1, l2, he⟩)
      · exact ⟨[], t2, by simp [he]⟩
      · exact ⟨c :: l1, l2, by simp [he]⟩
    · rintro ⟨l1, l2, he⟩
      cases l1 with
      | nil => exact Or.inl ⟨l2, by simpa using he⟩
      | cons x xs =>
        simp at he
        exact Or.inr ⟨xs, l2, by rw [he.2, List.append_assoc]⟩

theorem isSubstr_trans {a b c : Str} (h1 : isSubstr a b = true)
    (h2 : isSubstr b c = true) : isSubstr a c = true := by
  rcases isSubstr_iff.mp h1 with ⟨l1, l2, he1⟩
  rcases isSubstr_iff.mp h2 with ⟨m1, m2, he2⟩
  exact isSubstr_iff.mpr ⟨m1 ++ l1, l2 ++ m2, by rw [he2, he1]; simp⟩

/-- Python `str.strip()`: drop whitespace from both ends. -/
def stripStr (l : Str) : Str :=
  ((l.dropWhile Char.isWhitespace).reverse.dropWhile Char.isWhitespace).reverse

/-- `parse_csv_list` from app.py: split on commas, strip each entry,
lowercase it, and drop entries that strip to empty. -/
def parse_csv_list (s : Str) : List Str :=
  (splitOnChar ',' s).filterMap (fun t =>
    if stripStr t = [] then none else some ((stripStr t).map Char.toLower))

theorem map_toLower_idem (l : Str) :
    (l.map Char.toLower).map Char.toLower = l.map Char.toLower := by
  rw [List.map_map]
  exact List.map_congr_left (fun c _ => toLower_idem c)

theorem parse_csv_lower {s t : Str} (h : t ∈ parse_csv_list s) :
    t.map Char.toLower = t := by
  rcases List.mem_filterMap.mp h with ⟨x, _, hx⟩
  by_cases hs : stripStr x = []
  · simp [hs] at hx
  · simp only [hs, if_false, Option.some.injEq] at hx
    rw [← hx]
    exact map_toLower_idem _

/-- The lowercased haystack of `matches_include_keywords`:
`" ".join([title, url, snippet]).lower()`. -/
def hayOf (rec : SearchResult) : Str :=
  (rec.title ++ ' ' :: rec.url ++ ' ' :: rec.snippet).map Char.toLower

/-- `matches_include_keywords` from app.py: with an empty term list every
record passes; otherwise some term must occur as a substring of the
lowercased title-url-snippet concatenation. -/
def matches_include_keywords (rec : SearchResult) (include_terms : List Str) : Bool :=
  if include_terms = [] then true
  else include_terms.any (fun term => isSubstr term (hayOf rec))

/-- C7: with the include-term list produced by parse_csv_list, the filter
passes a record exactly when the list is empty or some term occurs
case-insensitively (both sides lowercased) in the combined
title-url-snippet text. -/
theorem matches_include_keywords_spec (s : Str) (rec : SearchResult) :
    matches_include_keywords rec (parse_csv_list s) = true ↔
      (parse_csv_list s = [] ∨
        ∃ t ∈ parse_csv_list s, isSubstr (t.map Char.toLower) (hayOf rec) = true) := by
  by_cases he : parse_csv_list s = []
  · simp [matches_include_keywords, he]
  · rw [matches_include_keywords, if_neg he]
    constructor
    · intro h
      rcases List.any_eq_true.mp h with ⟨t, ht, hsub⟩
      exact Or.inr ⟨t, ht, by rwa [parse_csv_lower ht]⟩
    · rintro (h | ⟨t, ht, hsub⟩)
      · exact absurd h he
      · exact List.any_eq_true.mpr ⟨t, ht, by rwa [parse_csv_lower ht] at hsub⟩

/-- `domain_allowed` from app.py. -/
def domain_allowed (domain : Str) (allowed_tlds_only : Bool) : Bool :=
  if domain = [] then false
  else if allowed_tlds_only then
    List.isSuffixOf ((".com").toList) domain || List.isSuffixOf ((".org").toList) domain
  else true

/-- The run configuration consumed by the filter loop. -/
structure FilterConfig where
  exclude_set : List Str
  only_com_org : Bool
  include_terms : List Str

/-- One record's pass condition in the "Filter" loop of app.py, mirroring
its continue-chain.  (The `or ""` of the source is the identity because
`extract_domain` already returns `""` on failure.) -/
def filterKeep (cfg : FilterConfig) (r : SearchResult) : Bool :=
  if extract_domain r.url = [] then false
  else if cfg.exclude_set ≠ [] ∧
      cfg.exclude_set.any (fun ex => isSubstr ex (extract_domain r.url)) then false
  else if domain_allowed (extract_domain r.url) cfg.only_com_org = false then false
  else matches_include_keywords r cfg.include_terms

/-- The "Filter" stage of app.py. -/
def filterStage (cfg : FilterConfig) (rs : List SearchResult) : List SearchResult :=
  rs.filter (filterKeep cfg)

/-- The per-domain cap loop of app.py ("Cap per-domain"): a record passes
only while its domain's running count is below the cap; a passing record
bumps its domain's count immediately.  The source's local `d` is inlined. -/
def per_domainLoop (m : Nat) : List SearchResult → (Str → Nat) → List SearchResult
  | [], _ => []
  | r :: rs, counts =>
    if counts (extract_domain r.url) < m then
      r :: per_domainLoop m rs
        (fun d2 => if d2 = extract_domain r.url then counts (extract_domain r.url) + 1
          else counts d2)
    else per_domainLoop m rs counts

/-- The cap stage, started from an empty count dict. -/
def per_domain (m : Nat) (rs : List SearchResult) : List SearchResult :=
  per_domainLoop m rs (fun _ => 0)

theorem per_domainLoop_filter (m : Nat) (d : Str) (rs : List SearchResult) :
    ∀ counts : Str → Nat,
      (per_domainLoop m rs counts).filter (fun r => decide (extract_domain r.url = d))
        = (rs.filter (fun r => decide (extract_domain r.url = d))).take (m - counts d) := by
  induction rs with
  | nil => intro counts; simp [per_domainLoop]
  | cons r rs ih =>
    intro counts
    unfold per_domainLoop
    by_cases hlt : counts (extract_domain r.url) < m
    · rw [if_pos hlt]
      by_cases hd : extract_domain r.url = d
      · rw [List.filter_cons_of_pos (by simp [hd]), List.filter_cons_of_pos (by simp [hd])]
        subst hd
        have h1 : m - counts (extract_domain r.url)
            = (m - (counts (extract_domain r.url) + 1)) + 1 := by omega
        rw [h1, List.take_succ_cons]
        rw [ih]
        simp
      · rw [List.filter_cons_of_neg (by simp [hd]), List.filter_cons_of_neg (by simp [hd])]
        rw [ih]
        have h2 : (if d = extract_domain r.url then counts (extract_domain r.url) + 1
            else counts d) = counts d := by
          rw [if_neg (fun he => hd he.symm)]
        rw [h2]
    · rw [if_neg hlt]
      by_cases hd : extract_domain r.url = d
      · rw [ih, List.filter_cons_of_pos (by simp [hd])]
        subst hd
        have h3 : m - counts (extract_domain r.url) = 0 := by omega
        rw [h3]
        simp
      · rw [ih, List.filter_cons_of_neg (by simp [hd])]

/-- C1: for any cap of at least one, after the per-domain cap stage at most
that many survivors have any given extracted domain, and the survivors of
each domain are exactly the first such records of the input, in order (each
passing record bumps its domain's running count at once, which the loop
state of per_domainLoop realizes). -/
theorem per_domain_cap (rs : List SearchResult) (m : Nat) (d : Str) (h : 1 ≤ m) :
    ((per_domain m rs).filter (fun r => decide (extract_domain r.url = d))).length ≤ m ∧
      (per_domain m rs).filter (fun r => decide (extract_domain r.url = d))
        = (rs.filter (fun r => decide (extract_domain r.url = d))).take m := by
  have hcore := per_domainLoop_filter m d rs (fun _ => 0)
  rw [Nat.sub_zero] at hcore
  unfold per_domain
  constructor
  · rw [hcore]
    exact (List.length_take _ _).le.trans (Nat.min_le_left _ _)
  · exact hcore

/-- C1 witness: two records of the same domain, cap one, at most one
survivor of that domain. -/
theorem per_domain_cap_witness :
    ((per_domain 1 [⟨[], ("http://a.com/x").toList, []⟩,
        ⟨[], ("http://b.a.com/y").toList, []⟩]).filter
      (fun r => decide (extract_domain r.url = ("a.com").toList))).length ≤ 1 :=
  (per_domain_cap [⟨[], ("http://a.com/x").toList, []⟩,
    ⟨[], ("http://b.a.com/y").toList, []⟩] 1 (("a.com").toList) (by decide)).1

theorem per_domainLoop_subset {m : Nat} {rs : List SearchResult}
    {counts : Str → Nat} {r : SearchResult}
    (h : r ∈ per_domainLoop m rs counts) : r ∈ rs := by
  induction rs generalizing counts with
  | nil => simpa [per_domainLoop] using h
  | cons q rs ih =>
    unfold per_domainLoop at h
    split at h
    · rcases List.mem_cons.mp h with h1 | h2
      · exact h1 ▸ List.mem_cons_self _ _
      · exact List.mem_cons_of_mem _ (ih h2)
    · exact List.mem_cons_of_mem _ (ih h)

/-- C10 (implicit): any record with a missing or empty url is discarded by
the dedupe stage, so no empty-url record is present at the filter stage, the
per-domain cap stage, or the extraction input they feed. -/
theorem no_empty_url_downstream (rs : List SearchResult) (cfg : FilterConfig)
    (m : Nat) (r : SearchResult)
    (h : r ∈ dedupe rs ∨ r ∈ filterStage cfg (dedupe rs)
        ∨ r ∈ per_domain m (filterStage cfg (dedupe rs))) :
    r.url ≠ [] := by
  have hd : r ∈ dedupe rs → r.url ≠ [] := fun hm => (dedupeLoop_mem hm).1
  rcases h with h | h | h
  · exact hd h
  · exact hd (List.mem_of_mem_filter h)
  · exact hd (List.mem_of_mem_filter (per_domainLoop_subset h))

/-- C10 witness at a concrete one-record run. -/
theorem no_empty_url_downstream_witness :
    (⟨[], ("http://a.com/").toList, []⟩ : SearchResult).url ≠ [] :=
  no_empty_url_downstream [⟨[], ("http://a.com/").toList, []⟩]
    ⟨[], true, []⟩ 1 ⟨[], ("http://a.com/").toList, []⟩ (Or.inl (by decide))

/-- CONTACT_KEYWORDS from app.py. -/
def CONTACT_KEYWORDS : List Str :=
  [("contact").toList, ("contact us").toList, ("about").toList, ("editor").toList,
   ("pitch").toList, ("media").toList, ("press").toList, ("submit").toList,
   ("guidelines").toList]

/-- An anchor element of a parsed page: visible text and raw href. -/
structure Anchor where
  text : Str
  href : Str

/-- `extract_links` from app.py over the anchors of a parsed page: pairs of
stripped, lowercased visible text and of the href resolved against the page
URL.  HTML parsing and `urljoin` are external collaborators, entering as the
anchor list and the `resolve` oracle. -/
def extract_links (resolve : Str → Str) (anchors : List Anchor) : List (Str × Str) :=
  anchors.map (fun a => ((stripStr a.text).map Char.toLower, resolve a.href))

/-- The accumulation loop of `find_candidate_contact_links`. -/
def findLoop : List (Str × Str) → List Str → List Str
  | [], _ => []
  | (txt, url) :: rest, seen =>
    if CONTACT_KEYWORDS.any (fun kw => isSubstr kw txt) then
      if url ∈ seen then findLoop rest seen
      else url :: findLoop rest (url :: seen)
    else findLoop rest seen

/-- `find_candidate_contact_links` from app.py: keyword-matching anchors,
deduplicated by url, first ten kept. -/
def find_candidate_contact_links (links : List (Str × Str)) : List Str :=
  (findLoop links []).take 10

/-- First-occurrence deduplication with an explicit seen list. -/
def dedupFirst : List Str → List Str → List Str
  | [], _ => []
  | u :: us, seen =>
    if u ∈ seen then dedupFirst us seen else u :: dedupFirst us (u :: seen)

/-- The claim's fixed keyword list; the source list's extra "contact us"
entry is subsumed by "contact". -/
def CONTACT_KEYWORDS_SPEC : List Str :=
  [("contact").toList, ("about").toList, ("editor").toList, ("pitch").toList,
   ("media").toList, ("press").toList, ("submit").toList, ("guidelines").toList]

/-- Spec-side description of the contact-link selector: filter the anchor
pairs by keyword occurrence in the lowercased visible text, project to the
resolved urls, deduplicate keeping first occurrences, cap at ten. -/
def contactLinksSpec (resolve : Str → Str) (anchors : List Anchor) : List Str :=
  (dedupFirst (((extract_links resolve anchors).filter
      (fun p => CONTACT_KEYWORDS_SPEC.any (fun kw => isSubstr kw p.1))).map Prod.snd) []).take 10

theorem contact_kw_agree (txt : Str) :
    CONTACT_KEYWORDS.any (fun kw => isSubstr kw txt)
      = CONTACT_KEYWORDS_SPEC.any (fun kw => isSubstr kw txt) := by
  simp only [CONTACT_KEYWORDS, CONTACT_KEYWORDS_SPEC, List.any_cons, List.any_nil]
  by_cases hc : isSubstr (("contact").toList) txt = true
  · rw [hc]
    simp
  · have hc2 : isSubstr (("contact").toList) txt = false := Bool.eq_false_iff.mpr hc
    have hcu : isSubstr (("contact us").toList) txt = false :=
      Bool.eq_false_iff.mpr (fun h => hc (isSubstr_trans (by decide) h))
    rw [hc2, hcu]
    simp

theorem findLoop_eq (pairs : List (Str × Str)) :
    ∀ seen, findLoop pairs seen
      = dedupFirst ((pairs.filter
          (fun p => CONTACT_KEYWORDS.any (fun kw => isSubstr kw p.1))).map Prod.snd) seen := by
  induction pairs with
  | nil => intro seen; simp [findLoop, dedupFirst]
  | cons p rest ih =>
    intro seen
    obtain ⟨txt, url⟩ := p
    unfold findLoop
    by_cases hk : (CONTACT_KEYWORDS.any (fun kw => isSubstr kw txt)) = true
    · rw [if_pos hk, List.filter_cons_of_pos (by simpa using hk)]
      simp only [List.map_cons]
      unfold dedupFirst
      by_cases hs : url ∈ seen
      · rw [if_pos hs, if_pos hs, ih]
      · rw [if_neg hs, if_neg hs, ih]
    · rw [if_neg hk, List.filter_cons_of_neg (by simpa using hk), ih]

/-- C8: find_candidate_contact_links over the extracted anchor pairs returns
exactly the resolved urls of the anchors whose lowercased visible text
contains one of the fixed keywords (contact, about, editor, pitch, media,
press, submit, guidelines), deduplicated by resolved url, in discovery
order, capped at ten. -/
theorem find_candidate_contact_links_spec (resolve : Str → Str) (anchors : List Anchor) :
    find_candidate_contact_links (extract_links resolve anchors)
      = contactLinksSpec resolve anchors := by
  unfold find_candidate_contact_links contactLinksSpec
  rw [findLoop_eq]
  have hfe : (extract_links resolve anchors).filter
        (fun p => CONTACT_KEYWORDS.any (fun kw => isSubstr kw p.1))
      = (extract_links resolve anchors).filter
        (fun p => CONTACT_KEYWORDS_SPEC.any (fun kw => isSubstr kw p.1)) :=
    List.filter_congr (fun p _ => contact_kw_agree p.1)
  rw [hfe]

/-- `search_queries` from app.py: the niche is stripped once and appended to
each of five quoted templates. -/
def search_queries (niche : Str) : List Str :=
  [("\"write for us\" ").toList ++ stripStr niche,
   ("\"guest post\" ").toList ++ stripStr niche,
   ("\"contribute\" ").toList ++ stripStr niche,
   ("\"submit an article\" ").toList ++ stripStr niche,
   ("\"editorial guidelines\" ").toList ++ stripStr niche]

/-- C9: for every niche the query builder returns exactly five queries, one
per template (write-for-us, guest-post, contribute, submit-an-article,
editorial-guidelines), each consisting of the template phrase wrapped in
double quotes followed by a space and the stripped niche; it is a total
function with no failure modes. -/
theorem search_queries_spec (niche : Str) :
    (search_queries niche).length = 5 ∧
      search_queries niche
        = [("write for us").toList, ("guest post").toList, ("contribute").toList,
           ("submit an article").toList, ("editorial guidelines").toList].map
            (fun t => '"' :: (t ++ '"' :: ' ' :: stripStr niche)) :=
  ⟨rfl, rfl⟩

/-- The character class [A-Z0-9._%+-] of EMAIL_REGEX under re.I. -/
def isC1 (c : Char) : Bool :=
  c.isAlpha || c.isDigit || c = '.' || c = '_' || c = '%' || c = '+' || c = '-'

/-- The character class [A-Z0-9.-] of EMAIL_REGEX under re.I. -/
def isC2 (c : Char) : Bool :=
  c.isAlpha || c.isDigit || c = '.' || c = '-'

/-- Whether splitting the regex's domain run at index i (which must hold a
dot) leaves at least two letters for the greedy [A-Z]{2,} tail. -/
def dotOk (dom : Str) (i : Nat) : Bool :=
  decide (dom.getD i ' ' = '.')
    && decide (2 ≤ ((dom.drop (i + 1)).takeWhile Char.isAlpha).length)

/-- Backtracking of the greedy [A-Z0-9.-]+ group: the largest split index
from i down to 1 at which the dot and the letter tail match. -/
def findDotAux (dom : Str) : Nat → Option Nat
  | 0 => none
  | i + 1 => if dotOk dom (i + 1) then some (i + 1) else findDotAux dom i

/-- One attempted match of EMAIL_REGEX at the head of l, returning the match
length: a maximal nonempty local-part run, an at sign, then the maximal
domain run split by backtracking into [A-Z0-9.-]+ "." [A-Z]{2,} with the
letter tail greedy.  This realizes Python's leftmost greedy-with-backtracking
semantics for this pattern: the at sign is not in the local class, so
shrinking the local run can never help, and the dot index is tried from the
right. -/
def matchAt (l : Str) : Option Nat :=
  if (l.takeWhile isC1).length = 0 then none
  else
    match l.drop (l.takeWhile isC1).length with
    | '@' :: tail =>
      match findDotAux (tail.takeWhile isC2) ((tail.takeWhile isC2).length - 1) with
      | some i =>
        some ((l.takeWhile isC1).length + 1 + i + 1
          + (((tail.takeWhile isC2).drop (i + 1)).takeWhile Char.isAlpha).length)
      | none => none
    | _ => none

theorem matchAt_pos {l : Str} {n : Nat} (h : matchAt l = some n) : 1 ≤ n := by
  unfold matchAt at h
  split at h
  · simp at h
  · split at h
    · split at h
      · simp at h
        omega
      · simp at h
    · simp at h

/-- The scan of `EMAIL_REGEX.finditer`, structurally recursive on a fuel
that counts remaining characters: at a match, emit it and resume after its
end, otherwise advance one character.  Since every match consumes at least
one character (matchAt_pos), fuel equal to the initial length never runs
out. -/
def finditerAux : Nat → Str → List Str
  | 0, _ => []
  | _, [] => []
  | fuel + 1, c :: cs =>
    match matchAt (c :: cs) with
    | some n => (c :: cs).take n :: finditerAux fuel ((c :: cs).drop n)
    | none => finditerAux fuel cs

/-- `EMAIL_REGEX.finditer`: the list of matches of the email pattern, left
to right, non-overlapping. -/
def finditer (l : Str) : List Str := finditerAux l.length l

/-- Python string comparison (code-point lexicographic). -/
def strLe : Str → Str → Bool
  | [], _ => true
  | _ :: _, [] => false
  | c :: cs, d :: ds => if c = d then strLe cs ds else decide (c < d)

/-- Insertion step of the sort modelling Python's `sorted`. -/
def insertSortedStr (x : Str) : List Str → List Str
  | [] => [x]
  | y :: ys => if strLe x y then x :: y :: ys else y :: insertSortedStr x ys

/-- Sorting by strLe; on the distinct strings of a set this produces the
unique ascending enumeration, which is what `sorted(set(...))` returns. -/
def sortStr (l : List Str) : List Str := l.foldr insertSortedStr []

/-- `extract_emails` from app.py: `sorted({m.group(0) for m in
EMAIL_REGEX.finditer(text)})` — the distinct matches in ascending order. -/
def extract_emails (text : Str) : List Str :=
  sortStr (dedupFirst (finditer text) [])

theorem strLe_total (a b : Str) : strLe a b = true ∨ strLe b a = true := by
  induction a generalizing b with
  | nil => exact Or.inl rfl
  | cons c cs ih =>
    cases b with
    | nil => exact Or.inr rfl
    | cons d ds =>
      by_cases hcd : c = d
      · subst hcd
        simp only [strLe, if_pos rfl]
        exact ih ds
      · simp only [strLe, if_neg hcd, if_neg (Ne.symm hcd)]
        rcases lt_trichotomy c d with h | h | h
        · exact Or.inl (decide_eq_true h)
        · exact absurd h hcd
        · exact Or.inr (decide_eq_true h)

theorem strLe_trans {a b c : Str} (h1 : strLe a b = true) (h2 : strLe b c = true) :
    strLe a c = true := by
  induction a generalizing b c with
  | nil => rfl
  | cons x xs ih =>
    cases b with
    | nil => simp [strLe] at h1
    | cons y ys =>
      cases c with
      | nil => simp [strLe] at h2
      | cons z zs =>
        by_cases hxy : x = y
        · subst hxy
          simp only [strLe, if_pos rfl] at h1
          by_cases hyz : x = z
          · subst hyz
            simp only [strLe, if_pos rfl] at h2 ⊢
            exact ih h1 h2
          · simp only [strLe, if_neg hyz] at h2 ⊢
            exact h2
        · simp only [strLe, if_neg hxy] at h1
          have hlt1 : x < y := of_decide_eq_true h1
          by_cases hyz : y = z
          · subst hyz
            simp only [strLe, if_neg hxy]
            exact decide_eq_true hlt1
          · simp only [strLe, if_neg hyz] at h2
            have hlt2 : y < z := of_decide_eq_true h2
            have hxz : x < z := lt_trans hlt1 hlt2
            simp only [strLe, if_neg (ne_of_lt hxz)]
            exact decide_eq_true hxz

theorem insertSortedStr_perm (x : Str) (l : List Str) :
    (insertSortedStr x l).Perm (x :: l) := by
  induction l with
  | nil => exact List.Perm.refl _
  | cons y ys ih =>
    unfold insertSortedStr
    by_cases h : strLe x y = true
    · rw [if_pos h]
    · rw [if_neg h]
      exact (List.Perm.cons y ih).trans (List.Perm.swap x y ys)

theorem pairwise_insertSortedStr {x : Str} {l : List Str}
    (hl : l.Pairwise (fun a b => strLe a b = true)) :
    (insertSortedStr x l).Pairwise (fun a b => strLe a b = true) := by
  induction l with
  | nil => simp [insertSortedStr]
  | cons y ys ih =>
    rcases List.pairwise_cons.mp hl with ⟨hy, hys⟩
    unfold insertSortedStr
    by_cases hxy : strLe x y = true
    · rw [if_pos hxy]
      refine List.pairwise_cons.mpr ⟨?_, hl⟩
      intro b hb
      rcases List.mem_cons.mp hb with rfl | hbm
      · exact hxy
      · exact strLe_trans hxy (hy b hbm)
    · rw [if_neg hxy]
      refine List.pairwise_cons.mpr ⟨?_, ih hys⟩
      intro b hb
      have hbm := (insertSortedStr_perm x ys).mem_iff.mp hb
      rcases List.mem_cons.mp hbm with rfl | hbys
      · rcases strLe_total y b with h | h
        · exact h
        · exact absurd h hxy
      · exact hy b hbys

theorem sortStr_pairwise (l : List Str) :
    (sortStr l).Pairwise (fun a b => strLe a b = true) := by
  induction l with
  | nil => simp [sortStr]
  | cons x xs ih => exact pairwise_insertSortedStr ih

theorem sortStr_perm (l : List Str) : (sortStr l).Perm l := by
  induction l with
  | nil => exact List.Perm.refl _
  | cons x xs ih =>
    exact (insertSortedStr_perm x (sortStr xs)).trans (List.Perm.cons x ih)

theorem dedupFirst_mem {l seen : List Str} {u : Str}
    (h : u ∈ dedupFirst l seen) : u ∉ seen := by
  induction l generalizing seen with
  | nil => simp [dedupFirst] at h
  | cons v vs ih =>
    unfold dedupFirst at h
    split at h
    · exact ih h
    · rename_i hns
      rcases List.mem_cons.mp h with rfl | h2
      · exact hns
      · intro hmem
        exact ih h2 (List.mem_cons_of_mem _ hmem)

theorem dedupFirst_nodup (l : List Str) : ∀ seen, (dedupFirst l seen).Nodup := by
  induction l with
  | nil => intro seen; simp [dedupFirst]
  | cons v vs ih =>
    intro seen
    unfold dedupFirst
    split
    · exact ih seen
    · refine List.nodup_cons.mpr ⟨?_, ih _⟩
      intro hmem
      exact dedupFirst_mem hmem (List.mem_cons_self _ _)

/-- C4 (amended): the emails list is sorted in Python's code-point
lexicographic order, deduplicated by exact string equality (case-variant
entries stay distinct), and the final-row cap `emails[:5]` leaves at most
five entries. -/
theorem extract_emails_spec (text : Str) :
    (extract_emails text).Pairwise (fun a b => strLe a b = true) ∧
      (extract_emails text).Nodup ∧ ((extract_emails text).take 5).length ≤ 5 := by
  refine ⟨sortStr_pairwise _, ?_, ?_⟩
  · exact ((sortStr_perm _).nodup_iff).mpr (dedupFirst_nodup _ _)
  · exact (List.length_take _ _).le.trans (Nat.min_le_left _ _)

/-- C4 counterexample: page text holding A@B.cd and a@b.cd produces two
email entries that differ only by letter case, so the emails field is
deduplicated by exact string equality, not case-insensitively. -/
theorem extract_emails_not_ci_dedup_cex :
    extract_emails (("A@B.cd a@b.cd").toList)
        = [("A@B.cd").toList, ("a@b.cd").toList]
      ∧ ¬ ((extract_emails (("A@B.cd a@b.cd").toList)).map
          (fun s => s.map Char.toLower)).Nodup := by
  constructor
  · decide
  · decide

/-- A final output row assembled by the extraction loop of app.py. -/
structure Row where
  domain : Str
  url : Str
  title : Str
  snippet : Str
  emails : Str
  contact_links : Str
deriving DecidableEq

/-- `fetch_html` from app.py against a network oracle: `none` models a
transport error (the except path returns empty text), a response with
status at least 400 is mapped to empty text, otherwise the body text is
returned. -/
def fetch_html (net : Str → Option (Nat × Str)) (url : Str) : Str :=
  match net url with
  | none => []
  | some (status, body) => if 400 ≤ status then [] else body

/-- Python `";".join(parts)`. -/
def joinSemicolon : List Str → Str
  | [] => []
  | [s] => s
  | s :: ss => s ++ ';' :: joinSemicolon ss

/-- One iteration of the extraction loop of app.py ("Visit pages and
extract signals") for one surviving candidate: fetch the page best effort,
extract emails from nonempty content only, extract contact links from the
parsed anchors of nonempty content only, and assemble the output row with
the emails capped at five.  `parse` stands for BeautifulSoup and
`resolve url` for `urljoin(url, ·)`; the progress display and the
inter-request sleep are presentation and timing effects outside the
model. -/
def processItem (net : Str → Option (Nat × Str)) (parse : Str → List Anchor)
    (resolve : Str → Str → Str) (item : SearchResult) : Row :=
  let html := fetch_html net item.url
  let emails := if html = [] then [] else extract_emails html
  let contacts :=
    if html = [] then []
    else find_candidate_contact_links (extract_links (resolve item.url) (parse html))
  { domain := extract_domain item.url, url := item.url, title := item.title,
    snippet := item.snippet, emails := joinSemicolon (emails.take 5),
    contact_links := joinSemicolon contacts }

/-- The extraction loop over all surviving candidates, in order. -/
def extraction_rows (net : Str → Option (Nat × Str)) (parse : Str → List Anchor)
    (resolve : Str → Str → Str) (items : List SearchResult) : List Row :=
  items.map (processItem net parse resolve)

/-- Default row used only as the out-of-range fallback of getD. -/
def emptyRow : Row :=
  { domain := [], url := [], title := [], snippet := [], emails := [],
    contact_links := [] }

theorem processItem_empty {net : Str → Option (Nat × Str)}
    {parse : Str → List Anchor} {resolve : Str → Str → Str}
    {item : SearchResult} (h : fetch_html net item.url = []) :
    (processItem net parse resolve item).emails = []
      ∧ (processItem net parse resolve item).contact_links = [] := by
  constructor <;> simp [processItem, h, joinSemicolon]

/-- C5: when the fetch of one candidate's page fails (transport error or
response status at least 400), the pipeline still produces a row for that
candidate with empty emails and empty contact links, and processing
continues: every candidate still gets exactly one row, in order. -/
theorem fetch_failure_degrades (net : Str → Option (Nat × Str))
    (parse : Str → List Anchor) (resolve : Str → Str → Str)
    (items : List SearchResult) (i : Nat) (hi : i < items.length)
    (hf : net (items.get ⟨i, hi⟩).url = none
      ∨ ∃ st body, net (items.get ⟨i, hi⟩).url = some (st, body) ∧ 400 ≤ st) :
    (extraction_rows net parse resolve items).length = items.length ∧
      ((extraction_rows net parse resolve items).getD i emptyRow).emails = [] ∧
      ((extraction_rows net parse resolve items).getD i emptyRow).contact_links = [] := by
  have hhtml : fetch_html net (items.get ⟨i, hi⟩).url = [] := by
    rcases hf with h | ⟨st, body, h, hst⟩
    · unfold fetch_html
      rw [h]
    · unfold fetch_html
      rw [h]
      simp [hst]
  have hrow : (extraction_rows net parse resolve items).getD i emptyRow
      = processItem net parse resolve (items.get ⟨i, hi⟩) := by
    unfold extraction_rows
    rw [List.getD_eq_getElem?_getD, List.getElem?_map, List.getElem?_eq_getElem hi]
    rfl
  rw [hrow]
  exact ⟨List.length_map _ _, (processItem_empty hhtml).1, (processItem_empty hhtml).2⟩

/-- C5 witness: a one-candidate run whose only fetch errors out. -/
theorem fetch_failure_degrades_witness :
    (extraction_rows (fun _ => none) (fun _ => []) (fun _ h2 => h2)
        [⟨[], ("http://a.com/").toList, []⟩]).length = 1 ∧
      ((extraction_rows (fun _ => none) (fun _ => []) (fun _ h2 => h2)
          [⟨[], ("http://a.com/").toList, []⟩]).getD 0 emptyRow).emails = [] ∧
      ((extraction_rows (fun _ => none) (fun _ => []) (fun _ h2 => h2)
          [⟨[], ("http://a.com/").toList, []⟩]).getD 0 emptyRow).contact_links = [] := by
  have h := fetch_failure_degrades (fun _ => none) (fun _ => []) (fun _ h2 => h2)
    [⟨[], ("http://a.com/").toList, []⟩] 0 (by decide) (Or.inl rfl)
  simpa using h

/-- A raw provider result with optional fields, as in the JSON response. -/
structure RawItem where
  title : Option Str
  link : Option Str
  snippet : Option Str

/-- Field normalization of `serpapi_search`: missing title, link or snippet
defaults to the empty string. -/
def normalizeItem (it : RawItem) : SearchResult :=
  { title := it.title.getD [], url := it.link.getD [], snippet := it.snippet.getD [] }

/-- `serpapi_search` from app.py against one provider response.  `Except
Unit` models raising: a transport error (the error response), a status in
[400, 600) (exactly what `raise_for_status` raises on), or an unparseable
JSON body (`none`) each raise; otherwise the organic results are
normalized.  The request-parameter computation (clamping of num and start)
only shapes the outbound request, which the oracle response abstracts. -/
def serpapi_search (resp : Except Unit (Nat × Option (List RawItem))) :
    Except Unit (List SearchResult) :=
  match resp with
  | Except.error e => Except.error e
  | Except.ok (status, body) =>
    if 400 ≤ status ∧ status < 600 then Except.error ()
    else
      match body with
      | none => Except.error ()
      | some items => Except.ok (items.map normalizeItem)

/-- The search phase of the orchestrator of app.py: for every query and
page, call the provider at offset page times results-per-page and append
the results; a raising call is caught (the try/except), contributes
nothing, and the loop proceeds.  The progress text, the warning and the
sleep are presentation and timing effects outside the model. -/
def searchPhase (net : Str → Nat → Except Unit (Nat × Option (List RawItem)))
    (queries : List Str) (pages rpp : Nat) : List SearchResult :=
  queries.foldl (fun acc q =>
    (List.range pages).foldl (fun acc2 p =>
      match serpapi_search (net q (p * rpp)) with
      | Except.ok res => acc2 ++ res
      | Except.error _ => acc2) acc) []

theorem foldl_congr_fn {α β : Type} {f g : β → α → β} {l : List α}
    (h : ∀ b a, f b a = g b a) : ∀ b, l.foldl f b = l.foldl g b := by
  induction l with
  | nil => intro b; rfl
  | cons x xs ih =>
    intro b
    simp only [List.foldl_cons, h]
    exact ih _

/-- The oracle with one query-offset slot replaced by an empty successful
response; used to state that a failing slot behaves as an empty success. -/
def updateNet (net : Str → Nat → Except Unit (Nat × Option (List RawItem)))
    (q0 : Str) (s0 : Nat) : Str → Nat → Except Unit (Nat × Option (List RawItem)) :=
  fun q s => if q = q0 ∧ s = s0 then Except.ok (200, some []) else net q s

/-- C6: a search call that fails — transport error or a response status
`raise_for_status` treats as an error — is recoverable per query and page:
the whole search phase equals the one in which that call instead returned
an empty success, so the failing call contributes zero results and every
other page and query proceeds unaffected; no failure escapes the loop. -/
theorem search_failure_recoverable
    (net : Str → Nat → Except Unit (Nat × Option (List RawItem)))
    (queries : List Str) (pages rpp : Nat) (q0 : Str) (s0 : Nat)
    (hf : net q0 s0 = Except.error ()
      ∨ ∃ st body, net q0 s0 = Except.ok (st, body) ∧ 400 ≤ st ∧ st < 600) :
    searchPhase net queries pages rpp
      = searchPhase (updateNet net q0 s0) queries pages rpp := by
  have hfail : serpapi_search (net q0 s0) = Except.error () := by
    rcases hf with h | ⟨st, body, h, hst⟩
    · rw [h]
      rfl
    · rw [h]
      simp [serpapi_search, hst]
  unfold searchPhase
  refine foldl_congr_fn ?_ []
  intro acc q
  refine foldl_congr_fn ?_ acc
  intro acc2 p
  simp only [updateNet]
  by_cases hqs : q = q0 ∧ p * rpp = s0
  · rw [if_pos hqs]
    rcases hqs with ⟨hq, hs⟩
    subst hq
    rw [hs, hfail]
    simp [serpapi_search]
  · rw [if_neg hqs]

/-- C6 witness: a run whose single search call errors out equals the run in
which that call returns an empty success. -/
theorem search_failure_recoverable_witness :
    searchPhase (fun _ _ => Except.error ()) [[]] 1 10
      = searchPhase (updateNet (fun _ _ => Except.error ()) [] 0) [[]] 1 10 :=
  search_failure_recoverable (fun _ _ => Except.error ()) [[]] 1 10 [] 0 (Or.inl rfl)
